import Mathlib

/-!
# Verification of the MOPS historical-news retrieval engine

A shallow embedding of `src/tw_scrapers/mops_historical_news.py` (the
historical-record retrieval engine of the TWSE-Auto-Notify repository),
together with proofs of the testable properties claimed for it.

Modelling conventions:

* Calendar dates are represented by natural numbers (day ordinals).  The
  Python code parses ROC-formatted date strings into `datetime` values and
  then only ever uses `+ timedelta(days = k)`, subtraction `(b - a).days`,
  `min` and comparison, all of which are faithfully mirrored by `Nat`
  arithmetic.  An inclusive window `[a, b]` spans `b - a + 1` calendar days.
* The upstream HTTP endpoint is an external collaborator.  It is modelled
  as an oracle parameter `post : Nat → Nat → Except EzError (List RawRecord)`
  standing for one `_post_once` call on a window, and (for the transport
  layer claims) `_post_once` itself is modelled over an abstract warm-up GET
  oracle (the `requests.get` that precedes the `try` block, indexed by the
  window being fetched since each invocation may behave differently), an
  abstract POST transport `Window → Except String String`, and an abstract
  JSON parser standing for `json.loads` followed by
  `payload.get("data", []) or []`.
* Python exceptions are modelled with `Except`; a raised exception aborts
  the computation exactly as the exception propagates in the source.
* Every engine function additionally returns the list of windows it posted,
  in order of posting; this trace observes "no network call", "no retry"
  and fail-fast behaviour.  Errors are paired with the trace of the calls
  issued before the abort.
-/

/-- An inclusive date window `[start, end]`, in day ordinals. -/
abbrev Window := Nat × Nat

/-- The exceptions the engine can raise.
`valueError` models Python `ValueError` (validation);
`runtimeError` models the `RuntimeError` raised by `_post_once` when the
POST fails; `requestsError` models a raw `requests` exception escaping the
warm-up GET, which sits outside the `try` block and therefore propagates
unwrapped; `jsonError` models an uncaught `json.JSONDecodeError`. -/
inductive EzError where
  | valueError (msg : String)
  | runtimeError (msg : String)
  | requestsError (msg : String)
  | jsonError (msg : String)
deriving DecidableEq, Repr

/-- A record exactly as delivered by the upstream `ezsearch_query` payload.
Each field models `row.get(KEY)`: `none` when the key is absent. -/
structure RawRecord where
  CDATE : Option String
  CTIME : Option String
  TYPEK : Option String
  CODE_NAME : Option String
  CO_ID : Option String
  STOCK_ID : Option String
  COMPANY_ID : Option String
  COMPANY_NAME : Option String
  AN_CODE : Option String
  AN_NAME : Option String
  SUBJECT : Option String
  DESCRIPTION : Option String
  HYPERLINK : Option String
deriving DecidableEq, Repr

/-- The normalized record dictionary built by `_normalize`.  Field names
follow the specification's CanonicalRecord; the original dict keys are
日期, 時間, 市場, 產業, 代號, 簡稱, 項目代碼, 項目, 主旨, 說明, 連結 in this order. -/
structure CanonicalRecord where
  publicationDate : Option String
  publicationTime : Option String
  market : Option String
  industry : Option String
  stockCode : Option String
  companyName : Option String
  itemCode : Option String
  itemName : Option String
  subject : Option String
  description : String
  link : Option String
deriving DecidableEq, Repr

/-- Python `x or y` on optional strings: `None` and `""` are falsy. -/
def pyOr (x y : Option String) : Option String :=
  match x with
  | some s => if s = "" then y else some s
  | none => y

/-- Python `x or d` where the fallback `d` is a plain string. -/
def pyOrStr (x : Option String) (d : String) : String :=
  match x with
  | some s => if s = "" then d else s
  | none => d

/-- One row of `_normalize`: the dict construction in the source. -/
def normalizeRow (row : RawRecord) : CanonicalRecord :=
  { publicationDate := row.CDATE
    publicationTime := row.CTIME
    market := row.TYPEK
    industry := row.CODE_NAME
    stockCode := pyOr (pyOr row.CO_ID row.STOCK_ID) row.COMPANY_ID
    companyName := row.COMPANY_NAME
    itemCode := row.AN_CODE
    itemName := row.AN_NAME
    subject := row.SUBJECT
    description := pyOrStr row.DESCRIPTION ""
    link := row.HYPERLINK }

/-- `_normalize(data)`: translate every raw row. -/
def normalizeRecords (data : List RawRecord) : List CanonicalRecord :=
  data.map normalizeRow

/-- The deduplication identity key `(日期, 時間, 主旨, 連結)`:
`(r.get("日期"), r.get("時間"), r.get("主旨"), r.get("連結"))`. -/
def recKey (r : CanonicalRecord) :
    Option String × Option String × Option String × Option String :=
  (r.publicationDate, r.publicationTime, r.subject, r.link)

/-- The sort key `((r.get("日期") or ""), (r.get("時間") or ""))`. -/
def sortKey (r : CanonicalRecord) : String × String :=
  (pyOrStr r.publicationDate "", pyOrStr r.publicationTime "")

/-- Python string `<`: lexicographic comparison by Unicode code point. -/
def charListLt : List Char → List Char → Bool
  | [], [] => false
  | [], _ :: _ => true
  | _ :: _, [] => false
  | c₁ :: t₁, c₂ :: t₂ =>
    if c₁.toNat < c₂.toNat then true
    else if c₂.toNat < c₁.toNat then false
    else charListLt t₁ t₂

/-- Python `s < t` on strings. -/
def strLtB (s t : String) : Bool := charListLt s.data t.data

/-- Lexicographic "key of `a` ≤ key of `b`", the order used by Python
`rows.sort(key=...)` (string pairs compared componentwise by code point). -/
def rowLe (a b : CanonicalRecord) : Bool :=
  if strLtB (sortKey a).1 (sortKey b).1 = true then true
  else if strLtB (sortKey b).1 (sortKey a).1 = true then false
  else if strLtB (sortKey a).2 (sortKey b).2 = true then true
  else if strLtB (sortKey b).2 (sortKey a).2 = true then false
  else true

/-- Python substring test `needle in hay` on character lists. -/
def containsSub (needle : List Char) : List Char → Bool
  | [] => needle.isPrefixOf []
  | c :: rest => needle.isPrefixOf (c :: rest) || containsSub needle rest

/-- Python `keyword in s` for strings. -/
def pyIn (keyword s : String) : Bool :=
  containsSub keyword.data s.data

/-- The second-pass keyword predicate of the source:
`keyword in (主旨 or "") or keyword in (說明 or "") or
 keyword in (項目 or "") or keyword in (簡稱 or "")`. -/
def keywordHit (keyword : String) (r : CanonicalRecord) : Bool :=
  pyIn keyword (pyOrStr r.subject "") ||
  pyIn keyword r.description ||
  pyIn keyword (pyOrStr r.itemName "") ||
  pyIn keyword (pyOrStr r.companyName "")

/-- The `seen`-set deduplication loop of the full-mode branch:
skip a row whose identity key was already seen, otherwise keep it and
record its key. -/
def dedupLoop (seen : List (Option String × Option String × Option String × Option String)) :
    List CanonicalRecord → List CanonicalRecord
  | [] => []
  | r :: rest =>
    if recKey r ∈ seen then dedupLoop seen rest
    else r :: dedupLoop (recKey r :: seen) rest

/-- The common tail of `fetch_ezsearch`: the stable ascending sort by
`(日期, 時間)` followed, when a keyword was supplied (`if subject:`), by
the second-pass keyword filter. -/
def postProcess (subject : String) (rows : List CanonicalRecord) : List CanonicalRecord :=
  let sorted := rows.mergeSort rowLe
  if subject ≠ "" then sorted.filter (keywordHit subject) else sorted

/-- `_fetch_chunk(a, b)` of full mode, over the abstract oracle `post`
(one `_post_once` call).  Returns the trace of posted windows together
with either the records of the chunk or the propagated exception.
Bisection fires when the fetch hit the cap (`len(raw) >= 1000`) and the
window spans at least two calendar days (`(b - a).days >= 1`); the split
day is `mid = a + (b - a) // 2`. -/
def fetch_chunk (post : Nat → Nat → Except EzError (List RawRecord)) :
    Nat → Nat → List Window × Except EzError (List CanonicalRecord)
  | a, b =>
    match post a b with
    | .error e => ([(a, b)], .error e)
    | .ok raw =>
      if h : 1000 ≤ raw.length ∧ 1 ≤ b - a then
        let mid := a + (b - a) / 2
        match fetch_chunk post a mid with
        | (tr₁, .error e) => ((a, b) :: tr₁, .error e)
        | (tr₁, .ok rs₁) =>
          match fetch_chunk post (mid + 1) b with
          | (tr₂, .error e) => ((a, b) :: (tr₁ ++ tr₂), .error e)
          | (tr₂, .ok rs₂) => ((a, b) :: (tr₁ ++ tr₂), .ok (rs₁ ++ rs₂))
      else ([(a, b)], .ok (normalizeRecords raw))
termination_by a b => b - a
decreasing_by
  · omega
  · omega

/-- The full-mode block loop: `cur` walks from `start_dt` to `end_dt` in
steps of `to = min(cur + 30 days, end_dt)`, extending `rows_all` with each
chunk result; an exception aborts the loop. -/
def full_loop (post : Nat → Nat → Except EzError (List RawRecord)) :
    Nat → Nat → List Window × Except EzError (List CanonicalRecord)
  | cur, e =>
    if h : cur ≤ e then
      let upTo := min (cur + 30) e
      match fetch_chunk post cur upTo with
      | (tr, .error err) => (tr, .error err)
      | (tr, .ok rs) =>
        match full_loop post (upTo + 1) e with
        | (tr₂, .error err) => (tr ++ tr₂, .error err)
        | (tr₂, .ok rest) => (tr ++ tr₂, .ok (rs ++ rest))
    else ([], .ok [])
termination_by cur e => e + 1 - cur
decreasing_by omega

/-- `fetch_ezsearch`, over the `_post_once` oracle.  Dates arrive already
parsed (the successful `_roc_to_date` path); mode validation precedes the
range check, both precede any post.  The original error texts are
"mode 必須是 fast 或 full" and "edate 需晚於或等於 sdate". -/
def fetch_ezsearch (post : Nat → Nat → Except EzError (List RawRecord))
    (sdate edate : Nat) (subject : String) (mode : String) :
    List Window × Except EzError (List CanonicalRecord) :=
  if mode ≠ "fast" ∧ mode ≠ "full" then
    ([], .error (.valueError "mode must be fast or full"))
  else if edate < sdate then
    ([], .error (.valueError "edate must not precede sdate"))
  else if mode = "fast" then
    match post sdate edate with
    | .error e => ([(sdate, edate)], .error e)
    | .ok raw => ([(sdate, edate)], .ok (postProcess subject (normalizeRecords raw)))
  else
    match full_loop post sdate edate with
    | (tr, .error e) => (tr, .error e)
    | (tr, .ok rowsAll) => (tr, .ok (postProcess subject (dedupLoop [] rowsAll)))

/-- Python `s.lower()` as used on market selectors.  The selectors involved
are ASCII or Chinese; Chinese has no case, so per-character ASCII lowering
is the exact behaviour of `str.lower` on every input the code compares. -/
def strLower (s : String) : String :=
  ⟨s.data.map Char.toLower⟩

/-- `_normalize_typek`: lower-case, then map the recognized market
selectors; anything else silently falls back to `"sii"`. -/
def normalize_typek (typek : String) : String :=
  let t := strLower typek
  if t = "sii" ∨ t = "上市" then "sii"
  else if t = "otc" ∨ t = "上櫃" then "otc"
  else if t = "rotc" ∨ t = "興櫃" then "rotc"
  else if t = "pub" ∨ t = "公開發行" then "pub"
  else "sii"

/-! ## Instrumentation, partition structure and modelled collaborators -/

/-- The recursion depth of `_fetch_chunk` on a window: the number of
levels of recursive calls below the initial call, following exactly the
same control flow (an exception, like a leaf, adds no further level). -/
def chunk_depth (post : Nat → Nat → Except EzError (List RawRecord)) :
    Nat → Nat → Nat
  | a, b =>
    match post a b with
    | .error _ => 0
    | .ok raw =>
      if h : 1000 ≤ raw.length ∧ 1 ≤ b - a then
        let mid := a + (b - a) / 2
        max (chunk_depth post a mid) (chunk_depth post (mid + 1) b) + 1
      else 0
termination_by a b => b - a
decreasing_by
  · omega
  · omega

/-- The number of calendar days an inclusive window spans. -/
def windowDays (w : Window) : Nat := w.2 - w.1 + 1

/-- The sequence of top-level blocks the full-mode loop walks through:
`cur` starts at the overall start and each block is
`[cur, min (cur + 30) e]`, the loop resuming at the day after the block
end.  This is the partitioner structure of the `while cur <= end_dt` loop. -/
def blocks : Nat → Nat → List Window
  | cur, e =>
    if h : cur ≤ e then
      (cur, min (cur + 30) e) :: blocks (min (cur + 30) e + 1) e
    else []
termination_by cur e => e + 1 - cur
decreasing_by omega

/-- Processing a list of blocks in order, each through the bisector,
concatenating results and aborting on the first exception: the shape of
the full-mode loop body as a fold over its block list. -/
def chunkFold (post : Nat → Nat → Except EzError (List RawRecord)) :
    List Window → List Window × Except EzError (List CanonicalRecord)
  | [] => ([], .ok [])
  | w :: rest =>
    match fetch_chunk post w.1 w.2 with
    | (tr, .error err) => (tr, .error err)
    | (tr, .ok rs) =>
      match chunkFold post rest with
      | (tr₂, .error err) => (tr ++ tr₂, .error err)
      | (tr₂, .ok more) => (tr ++ tr₂, .ok (rs ++ more))

/-- The true matching records of the window `[a, b]`. -/
def matchesIn (db : List (Nat × RawRecord)) (a b : Nat) : List RawRecord :=
  (db.filter (fun p => decide (a ≤ p.1) && decide (p.1 ≤ b))).map Prod.snd

/-- The modelled upstream oracle: one query returns the window's matches,
silently truncated at the cap. -/
def truncPost (db : List (Nat × RawRecord)) (a b : Nat) :
    Except EzError (List RawRecord) :=
  .ok ((matchesIn db a b).take 1000)

/-! ## Concrete sample records used by witnesses and counterexamples -/

/-- A raw record with every upstream field present. -/
def rawA : RawRecord :=
  { CDATE := some "114/01/05", CTIME := some "10:00:00", TYPEK := some "sii"
    CODE_NAME := some "半導體", CO_ID := some "2330", STOCK_ID := none
    COMPANY_ID := none, COMPANY_NAME := some "台積電", AN_CODE := some "1"
    AN_NAME := some "重大訊息", SUBJECT := some "公告A", DESCRIPTION := some "說明A"
    HYPERLINK := some "http://a" }

/-- A raw record sharing its identity key (date, time, subject, link) with
`rawA` but differing in the description field. -/
def rawB : RawRecord :=
  { rawA with DESCRIPTION := some "另一段不同的說明" }

/-! ## Unfolding equations for the recursive engine functions -/

theorem fetch_chunk_error (post : Nat → Nat → Except EzError (List RawRecord))
    (a b : Nat) (e : EzError) (hpost : post a b = .error e) :
    fetch_chunk post a b = ([(a, b)], .error e) := by
  unfold fetch_chunk
  rw [hpost]

theorem fetch_chunk_leaf (post : Nat → Nat → Except EzError (List RawRecord))
    (a b : Nat) (raw : List RawRecord) (hpost : post a b = .ok raw)
    (h : ¬(1000 ≤ raw.length ∧ 1 ≤ b - a)) :
    fetch_chunk post a b = ([(a, b)], .ok (normalizeRecords raw)) := by
  unfold fetch_chunk
  rw [hpost]
  exact dif_neg h

theorem fetch_chunk_split (post : Nat → Nat → Except EzError (List RawRecord))
    (a b : Nat) (raw : List RawRecord) (hpost : post a b = .ok raw)
    (h : 1000 ≤ raw.length ∧ 1 ≤ b - a) :
    fetch_chunk post a b =
      (match fetch_chunk post a (a + (b - a) / 2) with
       | (tr₁, .error e) => ((a, b) :: tr₁, .error e)
       | (tr₁, .ok rs₁) =>
         match fetch_chunk post (a + (b - a) / 2 + 1) b with
         | (tr₂, .error e) => ((a, b) :: (tr₁ ++ tr₂), .error e)
         | (tr₂, .ok rs₂) => ((a, b) :: (tr₁ ++ tr₂), .ok (rs₁ ++ rs₂))) := by
  conv_lhs => unfold fetch_chunk
  rw [hpost]
  exact dif_pos h

theorem full_loop_stop (post : Nat → Nat → Except EzError (List RawRecord))
    (cur e : Nat) (h : e < cur) : full_loop post cur e = ([], .ok []) := by
  unfold full_loop
  rw [dif_neg (by omega)]

theorem full_loop_step (post : Nat → Nat → Except EzError (List RawRecord))
    (cur e : Nat) (h : cur ≤ e) :
    full_loop post cur e =
      (match fetch_chunk post cur (min (cur + 30) e) with
       | (tr, .error err) => (tr, .error err)
       | (tr, .ok rs) =>
         match full_loop post (min (cur + 30) e + 1) e with
         | (tr₂, .error err) => (tr ++ tr₂, .error err)
         | (tr₂, .ok rest) => (tr ++ tr₂, .ok (rs ++ rest))) := by
  conv_lhs => unfold full_loop
  rw [dif_pos h]

/-! ## C10: market-type normalization -/

/-- C10: any market-type selector whose lower-cased form is not one of the
accepted values (sii/上市, otc/上櫃, rotc/興櫃, pub/公開發行) is silently
normalized to "sii"; `normalize_typek` is total (it never raises) and always
lands in the four accepted upstream codes. -/
theorem typek_fallback (t : String) :
    (strLower t ∉ ["sii", "上市", "otc", "上櫃", "rotc", "興櫃", "pub", "公開發行"] →
      normalize_typek t = "sii") ∧
    normalize_typek t ∈ ["sii", "otc", "rotc", "pub"] := by
  constructor
  · intro h
    simp only [List.mem_cons, List.mem_singleton, not_or] at h
    obtain ⟨h1, h2, h3, h4, h5, h6, h7, h8⟩ := h
    simp [normalize_typek, h1, h2, h3, h4, h5, h6, h7, h8]
  · unfold normalize_typek
    dsimp only
    split
    · simp
    · split
      · simp
      · split
        · simp
        · split <;> simp

theorem typek_fallback_witness :
    strLower "xyz" ∉ ["sii", "上市", "otc", "上櫃", "rotc", "興櫃", "pub", "公開發行"] ∧
    normalize_typek "xyz" = "sii" :=
  ⟨by decide, (typek_fallback "xyz").1 (by decide)⟩

/-! ## C7: validation precedes any network call -/

/-- C7: an inverted date range, or a mode selector other than "fast"/"full",
makes `fetch_ezsearch` raise a ValueError with an empty post trace: no
upstream query is issued. -/
theorem validation_before_network
    (post : Nat → Nat → Except EzError (List RawRecord))
    (sdate edate : Nat) (subject mode : String)
    (h : edate < sdate ∨ (mode ≠ "fast" ∧ mode ≠ "full")) :
    (fetch_ezsearch post sdate edate subject mode).1 = [] ∧
    ∃ m, (fetch_ezsearch post sdate edate subject mode).2 =
      .error (.valueError m) := by
  unfold fetch_ezsearch
  by_cases hm : mode ≠ "fast" ∧ mode ≠ "full"
  · rw [if_pos hm]
    exact ⟨rfl, _, rfl⟩
  · rw [if_neg hm]
    have hd : edate < sdate := by tauto
    rw [if_pos hd]
    exact ⟨rfl, _, rfl⟩

theorem validation_before_network_witness :
    ((10 : Nat) < 20 ∨ ("full" ≠ "fast" ∧ "full" ≠ "full")) ∧
    ((fetch_ezsearch (fun _ _ => .ok []) 20 10 "" "full").1 = [] ∧
      ∃ m, (fetch_ezsearch (fun _ _ => .ok []) 20 10 "" "full").2 =
        .error (.valueError m)) :=
  ⟨Or.inl (by decide),
    validation_before_network (fun _ _ => .ok []) 20 10 "" "full" (Or.inl (by decide))⟩

/-! ## C2: the bisector step -/

theorem chunk_depth_error (post : Nat → Nat → Except EzError (List RawRecord))
    (a b : Nat) (e : EzError) (hpost : post a b = .error e) :
    chunk_depth post a b = 0 := by
  unfold chunk_depth
  rw [hpost]

theorem chunk_depth_leaf (post : Nat → Nat → Except EzError (List RawRecord))
    (a b : Nat) (raw : List RawRecord) (hpost : post a b = .ok raw)
    (h : ¬(1000 ≤ raw.length ∧ 1 ≤ b - a)) :
    chunk_depth post a b = 0 := by
  unfold chunk_depth
  rw [hpost]
  exact dif_neg h

theorem chunk_depth_split (post : Nat → Nat → Except EzError (List RawRecord))
    (a b : Nat) (raw : List RawRecord) (hpost : post a b = .ok raw)
    (h : 1000 ≤ raw.length ∧ 1 ≤ b - a) :
    chunk_depth post a b =
      max (chunk_depth post a (a + (b - a) / 2))
        (chunk_depth post (a + (b - a) / 2 + 1) b) + 1 := by
  conv_lhs => unfold chunk_depth
  rw [hpost]
  exact dif_pos h

theorem chunk_depth_le_clog_aux (n : Nat)
    (post : Nat → Nat → Except EzError (List RawRecord)) :
    ∀ a b : Nat, b - a ≤ n → chunk_depth post a b ≤ Nat.clog 2 (b - a + 1) := by
  induction n with
  | zero =>
    intro a b hn
    rcases hp : post a b with e | raw
    · rw [chunk_depth_error post a b e hp]
      exact Nat.zero_le _
    · rw [chunk_depth_leaf post a b raw hp (by omega)]
      exact Nat.zero_le _
  | succ n ih =>
    intro a b hn
    rcases hp : post a b with e | raw
    · rw [chunk_depth_error post a b e hp]
      exact Nat.zero_le _
    · by_cases h : 1000 ≤ raw.length ∧ 1 ≤ b - a
      · rw [chunk_depth_split post a b raw hp h]
        have h1 : 1 ≤ b - a := h.2
        have hl : chunk_depth post a (a + (b - a) / 2) ≤
            Nat.clog 2 ((b - a) / 2 + 1) := by
          have := ih a (a + (b - a) / 2) (by omega)
          have harg : a + (b - a) / 2 - a = (b - a) / 2 := by omega
          rwa [harg] at this
        have hr : chunk_depth post (a + (b - a) / 2 + 1) b ≤
            Nat.clog 2 (b - a - (b - a) / 2) := by
          have := ih (a + (b - a) / 2 + 1) b (by omega)
          have harg : b - (a + (b - a) / 2 + 1) + 1 = b - a - (b - a) / 2 := by
            omega
          rwa [harg] at this
        have hrec : Nat.clog 2 (b - a + 1) =
            Nat.clog 2 ((b - a + 2) / 2) + 1 := by
          have := Nat.clog_of_two_le (b := 2) (n := b - a + 1)
            (by norm_num) (by omega)
          have harg : (b - a + 1 + 2 - 1) / 2 = (b - a + 2) / 2 := by omega
          rwa [harg] at this
        rw [hrec]
        have hle : max (chunk_depth post a (a + (b - a) / 2))
            (chunk_depth post (a + (b - a) / 2 + 1) b) ≤
            Nat.clog 2 ((b - a + 2) / 2) := by
          apply max_le
          · have harg : (b - a) / 2 + 1 = (b - a + 2) / 2 := by omega
            rw [harg] at hl
            exact hl
          · exact le_trans hr (Nat.clog_mono_right 2 (by omega))
        omega
      · rw [chunk_depth_leaf post a b raw hp h]
        exact Nat.zero_le _

/-- C9: the bisector recursion is well defined (the depth function below is
total), and on a window of `D = b - a + 1` calendar days it never recurses
deeper than `⌈log₂ D⌉` levels below the initial call, whatever the oracle
answers. -/
theorem recursion_depth_bound (post : Nat → Nat → Except EzError (List RawRecord))
    (a b : Nat) (hab : a ≤ b) :
    chunk_depth post a b ≤ Nat.clog 2 (b - a + 1) :=
  chunk_depth_le_clog_aux (b - a) post a b le_rfl

theorem recursion_depth_bound_witness :
    (0 : Nat) ≤ 6 ∧
    chunk_depth (fun _ _ => .ok [rawA]) 0 6 ≤ Nat.clog 2 (6 - 0 + 1) :=
  ⟨by decide, recursion_depth_bound (fun _ _ => .ok [rawA]) 0 6 (by decide)⟩

/-! ## C8: the range partitioner -/

theorem blocks_stop (cur e : Nat) (h : e < cur) : blocks cur e = [] := by
  unfold blocks
  rw [dif_neg (by omega)]

theorem blocks_step (cur e : Nat) (h : cur ≤ e) :
    blocks cur e =
      (cur, min (cur + 30) e) :: blocks (min (cur + 30) e + 1) e := by
  conv_lhs => unfold blocks
  rw [dif_pos h]

theorem full_loop_eq_chunkFold_aux (n : Nat)
    (post : Nat → Nat → Except EzError (List RawRecord)) :
    ∀ cur e : Nat, e + 1 - cur ≤ n →
      full_loop post cur e = chunkFold post (blocks cur e) := by
  induction n with
  | zero =>
    intro cur e hn
    rw [full_loop_stop post cur e (by omega), blocks_stop cur e (by omega)]
    rfl
  | succ n ih =>
    intro cur e hn
    by_cases hce : cur ≤ e
    · rw [full_loop_step post cur e hce, blocks_step cur e hce]
      show _ = chunkFold post ((cur, min (cur + 30) e) :: _)
      unfold chunkFold
      rcases hfc : fetch_chunk post cur (min (cur + 30) e) with ⟨tr, res⟩
      cases res with
      | error err => rfl
      | ok rs =>
        rw [ih (min (cur + 30) e + 1) e (by omega)]
    · rw [full_loop_stop post cur e (by omega), blocks_stop cur e (by omega)]
      rfl

theorem full_loop_eq_chunkFold (post : Nat → Nat → Except EzError (List RawRecord))
    (cur e : Nat) : full_loop post cur e = chunkFold post (blocks cur e) :=
  full_loop_eq_chunkFold_aux (e + 1 - cur) post cur e le_rfl

theorem blocks_props_aux (n : Nat) :
    ∀ s e : Nat, s ≤ e → e + 1 - s ≤ n →
      (∀ w ∈ blocks s e, s ≤ w.1 ∧ w.1 ≤ w.2 ∧ w.2 ≤ e ∧ windowDays w ≤ 31) ∧
      List.Chain' (fun w w2 : Window => w2.1 = w.2 + 1 ∧ windowDays w = 31)
        (blocks s e) ∧
      (blocks s e).head?.map Prod.fst = some s ∧
      (∀ d : Nat, (s ≤ d ∧ d ≤ e) ↔ ∃ w ∈ blocks s e, w.1 ≤ d ∧ d ≤ w.2) := by
  induction n with
  | zero => intro s e hse hn; omega
  | succ n ih =>
    intro s e hse hn
    rw [blocks_step s e hse]
    by_cases hlast : e ≤ s + 30
    · have ht : min (s + 30) e = e := by omega
      rw [ht, blocks_stop (e + 1) e (by omega)]
      refine ⟨?_, ?_, rfl, ?_⟩
      · intro w hw
        rw [List.mem_singleton] at hw
        subst hw
        simp only [windowDays]
        omega
      · simp
      · intro d
        constructor
        · intro hd
          exact ⟨(s, e), List.mem_singleton_self _, hd.1, hd.2⟩
        · rintro ⟨w, hw, hd1, hd2⟩
          rw [List.mem_singleton] at hw
          subst hw
          exact ⟨hd1, hd2⟩
    · have ht : min (s + 30) e = s + 30 := by omega
      rw [ht]
      have h31 : s + 30 + 1 = s + 31 := by omega
      rw [h31]
      obtain ⟨ihB, ihC, ihH, ihF⟩ := ih (s + 31) e (by omega) (by omega)
      refine ⟨?_, ?_, rfl, ?_⟩
      · intro w hw
        rcases List.mem_cons.mp hw with hw | hw
        · subst hw
          simp only [windowDays]
          omega
        · have := ihB w hw
          omega
      · rw [List.chain'_cons']
        refine ⟨?_, ihC⟩
        intro y hy
        rcases hh : (blocks (s + 31) e).head? with _ | w
        · rw [hh] at hy
          simp at hy
        · rw [hh] at hy ihH
          simp at hy ihH
          subst hy
          simp only [windowDays]
          omega
      · intro d
        constructor
        · intro hd
          by_cases hd30 : d ≤ s + 30
          · exact ⟨(s, s + 30), List.mem_cons_self _ _, hd.1, hd30⟩
          · obtain ⟨w, hw, hw1, hw2⟩ := (ihF d).mp ⟨by omega, hd.2⟩
            exact ⟨w, List.mem_cons_of_mem _ hw, hw1, hw2⟩
        · rintro ⟨w, hw, hd1, hd2⟩
          rcases List.mem_cons.mp hw with hw | hw
          · subst hw
            simp only at hd1 hd2
            omega
          · have h1 := (ihF d).mpr ⟨w, hw, hd1, hd2⟩
            omega

/-- C8 (amended): for `s ≤ e`, the full-mode loop processes exactly the
block sequence `blocks s e` in order; these blocks lie inside `[s, e]`,
are gap-free, non-overlapping and ascending (each block starts the day
after its predecessor ends), the first starts at `s`, together they cover
exactly `[s, e]`, each spans at most 31 calendar days (`end - start ≤ 30`),
and every block except possibly the last spans exactly 31 calendar days. -/
theorem partition_blocks (s e : Nat) (hse : s ≤ e) :
    (∀ post, full_loop post s e = chunkFold post (blocks s e)) ∧
    (∀ w ∈ blocks s e, s ≤ w.1 ∧ w.1 ≤ w.2 ∧ w.2 ≤ e ∧ windowDays w ≤ 31) ∧
    List.Chain' (fun w w2 : Window => w2.1 = w.2 + 1 ∧ windowDays w = 31)
      (blocks s e) ∧
    (blocks s e).head?.map Prod.fst = some s ∧
    (∀ d : Nat, (s ≤ d ∧ d ≤ e) ↔ ∃ w ∈ blocks s e, w.1 ≤ d ∧ d ≤ w.2) := by
  obtain ⟨hB, hC, hH, hF⟩ := blocks_props_aux (e + 1 - s) s e hse le_rfl
  exact ⟨fun post => full_loop_eq_chunkFold post s e, hB, hC, hH, hF⟩

/-- C8 counterexample to the claim as stated: a 62-day overall range is
split into the blocks `[0, 30]` and `[31, 61]`; the first block spans 31
calendar days, exceeding the claimed bound of 30 days per block. -/
theorem partition_blocks_cex :
    blocks 0 61 = [(0, 30), (31, 61)] ∧ windowDays (0, 30) = 31 ∧
    ¬ windowDays (0, 30) ≤ 30 := by
  refine ⟨?_, by decide, by decide⟩
  rw [blocks_step 0 61 (by omega)]
  have h1 : min (0 + 30) 61 = 30 := by omega
  rw [h1, blocks_step 31 61 (by omega)]
  have h2 : min (31 + 30) 61 = 61 := by omega
  rw [h2, blocks_stop 62 61 (by omega)]

theorem partition_blocks_witness :
    (0 : Nat) ≤ 61 ∧
    ((∀ post, full_loop post 0 61 = chunkFold post (blocks 0 61)) ∧
      (∀ w ∈ blocks 0 61, 0 ≤ w.1 ∧ w.1 ≤ w.2 ∧ w.2 ≤ 61 ∧ windowDays w ≤ 31) ∧
      List.Chain' (fun w w2 : Window => w2.1 = w.2 + 1 ∧ windowDays w = 31)
        (blocks 0 61) ∧
      (blocks 0 61).head?.map Prod.fst = some 0 ∧
      (∀ d : Nat, (0 ≤ d ∧ d ≤ 61) ↔ ∃ w ∈ blocks 0 61, w.1 ≤ d ∧ d ≤ w.2)) :=
  ⟨by decide, partition_blocks 0 61 (by decide)⟩

/-! ## The order and filter stage -/

theorem charListLt_irrefl : ∀ l, charListLt l l = false
  | [] => rfl
  | c :: t => by
    unfold charListLt
    rw [if_neg (lt_irrefl _), if_neg (lt_irrefl _)]
    exact charListLt_irrefl t

theorem charListLt_asymm_eq : ∀ l₁ l₂, charListLt l₁ l₂ = false →
    charListLt l₂ l₁ = false → l₁ = l₂
  | [], [], _, _ => rfl
  | [], _ :: _, h1, _ => by simp [charListLt] at h1
  | _ :: _, [], _, h2 => by simp [charListLt] at h2
  | c₁ :: t₁, c₂ :: t₂, h1, h2 => by
    unfold charListLt at h1 h2
    by_cases hlt : c₁.toNat < c₂.toNat
    · rw [if_pos hlt] at h1
      exact absurd h1 (by simp)
    · rw [if_neg hlt] at h1
      by_cases hgt : c₂.toNat < c₁.toNat
      · rw [if_pos hgt] at h2
        exact absurd h2 (by simp)
      · rw [if_neg hgt] at h1
        rw [if_neg hgt, if_neg hlt] at h2
        have hc : c₁ = c₂ := by
          have hn : c₁.toNat = c₂.toNat := by omega
          rw [← Char.ofNat_toNat c₁, hn, Char.ofNat_toNat]
        rw [hc, charListLt_asymm_eq t₁ t₂ h1 h2]

theorem charListLt_trans : ∀ l₁ l₂ l₃, charListLt l₁ l₂ = true →
    charListLt l₂ l₃ = true → charListLt l₁ l₃ = true
  | l₁, l₂, [], _, h2 => by cases l₂ <;> simp [charListLt] at h2
  | [], l₂, _ :: _, _, _ => by simp [charListLt]
  | c₁ :: t₁, l₂, c₃ :: t₃, h1, h2 => by
    cases l₂ with
    | nil => simp [charListLt] at h1
    | cons c₂ t₂ =>
      unfold charListLt at h1 h2 ⊢
      by_cases h12 : c₁.toNat < c₂.toNat <;> by_cases h23 : c₂.toNat < c₃.toNat
      · rw [if_pos (by omega)]
      · rw [if_neg h23] at h2
        by_cases h32 : c₃.toNat < c₂.toNat
        · rw [if_pos h32] at h2
          exact absurd h2 (by simp)
        · rw [if_pos (by omega)]
      · rw [if_neg h12] at h1
        by_cases h21 : c₂.toNat < c₁.toNat
        · rw [if_pos h21] at h1
          exact absurd h1 (by simp)
        · rw [if_pos (by omega)]
      · rw [if_neg h12] at h1
        rw [if_neg h23] at h2
        by_cases h21 : c₂.toNat < c₁.toNat
        · rw [if_pos h21] at h1
          exact absurd h1 (by simp)
        · by_cases h32 : c₃.toNat < c₂.toNat
          · rw [if_pos h32] at h2
            exact absurd h2 (by simp)
          · rw [if_neg h21] at h1
            rw [if_neg h32] at h2
            rw [if_neg (by omega), if_neg (by omega)]
            exact charListLt_trans t₁ t₂ t₃ h1 h2

theorem strLt_irrefl (s : String) : strLtB s s = false :=
  charListLt_irrefl s.data

theorem strLt_asymm_eq {s t : String} (h1 : strLtB s t = false)
    (h2 : strLtB t s = false) : s = t := by
  cases s with
  | mk d1 =>
    cases t with
    | mk d2 =>
      exact congrArg String.mk (charListLt_asymm_eq d1 d2 h1 h2)

theorem strLt_trans {a b c : String} (h1 : strLtB a b = true)
    (h2 : strLtB b c = true) : strLtB a c = true :=
  charListLt_trans a.data b.data c.data h1 h2

theorem rowLe_iff (a b : CanonicalRecord) :
    rowLe a b = true ↔
      (strLtB (sortKey a).1 (sortKey b).1 = true ∨
        ((sortKey a).1 = (sortKey b).1 ∧
          (strLtB (sortKey a).2 (sortKey b).2 = true ∨
            (sortKey a).2 = (sortKey b).2))) := by
  unfold rowLe
  split_ifs with h1 h2 h3 h4
  · simp [h1]
  · have hne : (sortKey a).1 ≠ (sortKey b).1 := by
      intro he
      rw [he, strLt_irrefl] at h2
      simp at h2
    simp [h1, hne]
  · have heq : (sortKey a).1 = (sortKey b).1 :=
      strLt_asymm_eq (Bool.not_eq_true _ ▸ h1) (Bool.not_eq_true _ ▸ h2)
    simp [heq, h3]
  · have hne2 : (sortKey a).2 ≠ (sortKey b).2 := by
      intro he
      rw [he, strLt_irrefl] at h4
      simp at h4
    simp [h1, h3, hne2]
  · have heq : (sortKey a).1 = (sortKey b).1 :=
      strLt_asymm_eq (Bool.not_eq_true _ ▸ h1) (Bool.not_eq_true _ ▸ h2)
    have heq2 : (sortKey a).2 = (sortKey b).2 :=
      strLt_asymm_eq (Bool.not_eq_true _ ▸ h3) (Bool.not_eq_true _ ▸ h4)
    simp [heq, heq2]

theorem rowLe_trans (a b c : CanonicalRecord) :
    rowLe a b → rowLe b c → rowLe a c := by
  intro hab hbc
  rw [rowLe_iff] at hab hbc ⊢
  rcases hab with h | ⟨h, h2⟩ <;> rcases hbc with g | ⟨g, g2⟩
  · exact Or.inl (strLt_trans h g)
  · exact Or.inl (g ▸ h)
  · exact Or.inl (h ▸ g)
  · refine Or.inr ⟨h.trans g, ?_⟩
    rcases h2 with h2 | h2 <;> rcases g2 with g2 | g2
    · exact Or.inl (strLt_trans h2 g2)
    · exact Or.inl (g2 ▸ h2)
    · exact Or.inl (h2 ▸ g2)
    · exact Or.inr (h2.trans g2)

theorem rowLe_total (a b : CanonicalRecord) : rowLe a b || rowLe b a := by
  by_cases h1 : strLtB (sortKey a).1 (sortKey b).1 = true
  · have : rowLe a b = true := (rowLe_iff a b).mpr (Or.inl h1)
    simp [this]
  · by_cases h2 : strLtB (sortKey b).1 (sortKey a).1 = true
    · have : rowLe b a = true := (rowLe_iff b a).mpr (Or.inl h2)
      simp [this]
    · have heq : (sortKey a).1 = (sortKey b).1 :=
        strLt_asymm_eq (Bool.not_eq_true _ ▸ h1) (Bool.not_eq_true _ ▸ h2)
      by_cases h3 : strLtB (sortKey a).2 (sortKey b).2 = true
      · have : rowLe a b = true :=
          (rowLe_iff a b).mpr (Or.inr ⟨heq, Or.inl h3⟩)
        simp [this]
      · by_cases h4 : strLtB (sortKey b).2 (sortKey a).2 = true
        · have : rowLe b a = true :=
            (rowLe_iff b a).mpr (Or.inr ⟨heq.symm, Or.inl h4⟩)
          simp [this]
        · have heq2 : (sortKey a).2 = (sortKey b).2 :=
            strLt_asymm_eq (Bool.not_eq_true _ ▸ h3) (Bool.not_eq_true _ ▸ h4)
          have : rowLe a b = true :=
            (rowLe_iff a b).mpr (Or.inr ⟨heq, Or.inr heq2⟩)
          simp [this]

theorem rowLe_of_sortKey_eq {a b : CanonicalRecord} (h : sortKey a = sortKey b) :
    rowLe a b = true :=
  (rowLe_iff a b).mpr
    (Or.inr ⟨congrArg Prod.fst h, Or.inr (congrArg Prod.snd h)⟩)

/-- Membership in the order-and-filter stage output. -/
theorem mem_postProcess (subject : String) (l : List CanonicalRecord)
    (r : CanonicalRecord) :
    r ∈ postProcess subject l ↔
      r ∈ l ∧ (subject ≠ "" → keywordHit subject r = true) := by
  unfold postProcess
  by_cases hs : subject = ""
  · simp [hs]
  · simp [hs, List.mem_filter]

/-- The output of the order-and-filter stage is pairwise `rowLe`-sorted. -/
theorem postProcess_pairwise (subject : String) (l : List CanonicalRecord) :
    (postProcess subject l).Pairwise (fun a b => rowLe a b = true) := by
  have hsort : (l.mergeSort rowLe).Pairwise (fun a b => rowLe a b = true) :=
    List.sorted_mergeSort rowLe_trans rowLe_total l
  unfold postProcess
  by_cases hs : subject = ""
  · simpa [hs] using hsort
  · simp only [hs, if_pos, ne_eq, not_false_iff, if_true]
    exact hsort.sublist (List.filter_sublist _)

/-- Stability of the order-and-filter stage: a pair that appears in input
order with equal sort keys and survives to the output appears there in the
same order. -/
theorem postProcess_stable (subject : String) (l : List CanonicalRecord)
    (a b : CanonicalRecord) (hab : [a, b].Sublist l)
    (hkey : sortKey a = sortKey b)
    (ha : a ∈ postProcess subject l) (hb : b ∈ postProcess subject l) :
    [a, b].Sublist (postProcess subject l) := by
  have hsorted : [a, b].Sublist (l.mergeSort rowLe) :=
    List.pair_sublist_mergeSort rowLe_trans rowLe_total
      (rowLe_of_sortKey_eq hkey) hab
  unfold postProcess
  by_cases hs : subject = ""
  · simpa [hs] using hsorted
  · simp only [hs, ne_eq, not_false_iff, if_true]
    have hpa : keywordHit subject a = true :=
      ((mem_postProcess subject l a).mp ha).2 hs
    have hpb : keywordHit subject b = true :=
      ((mem_postProcess subject l b).mp hb).2 hs
    have := hsorted.filter (keywordHit subject)
    rwa [show [a, b].filter (keywordHit subject) = [a, b] by
      simp [List.filter, hpa, hpb]] at this

/-- Every successful `fetch_ezsearch` result is the order-and-filter stage
applied to some intermediate row list (the normalized fast fetch, or the
deduplicated full-mode merge). -/
theorem fetch_ezsearch_ok_shape (post : Nat → Nat → Except EzError (List RawRecord))
    (sdate edate : Nat) (subject mode : String)
    (tr : List Window) (rows : List CanonicalRecord)
    (h : fetch_ezsearch post sdate edate subject mode = (tr, .ok rows)) :
    ∃ l, rows = postProcess subject l := by
  unfold fetch_ezsearch at h
  by_cases hm : mode ≠ "fast" ∧ mode ≠ "full"
  · rw [if_pos hm] at h
    simp at h
  · rw [if_neg hm] at h
    by_cases hd : edate < sdate
    · rw [if_pos hd] at h
      simp at h
    · rw [if_neg hd] at h
      by_cases hf : mode = "fast"
      · rw [if_pos hf] at h
        rcases hp : post sdate edate with e | raw
        · rw [hp] at h
          simp at h
        · rw [hp] at h
          simp only [Prod.mk.injEq] at h
          exact ⟨normalizeRecords raw, (Except.ok.inj h.2).symm⟩
      · rw [if_neg hf] at h
        rcases hl : full_loop post sdate edate with ⟨tr2, res⟩
        rw [hl] at h
        cases res with
        | error e => simp at h
        | ok rowsAll =>
          simp only [Prod.mk.injEq] at h
          exact ⟨dedupLoop [] rowsAll, (Except.ok.inj h.2).symm⟩

/-! ## C4: chronological order and stability -/

/-- C4: every successful result of `fetch_ezsearch` is pairwise ordered by
ascending `(publicationDate, publicationTime)` — in particular every
adjacent pair `(a, b)` satisfies `rowLe a b` — and it arises as the order
and filter stage applied to an input list `l` in which any two surviving
records with equal sort keys keep their input order (the sort is stable). -/
theorem result_sorted_stable (post : Nat → Nat → Except EzError (List RawRecord))
    (sdate edate : Nat) (subject mode : String)
    (tr : List Window) (rows : List CanonicalRecord)
    (h : fetch_ezsearch post sdate edate subject mode = (tr, .ok rows)) :
    rows.Pairwise (fun a b => rowLe a b = true) ∧
    List.Chain' (fun a b => rowLe a b = true) rows ∧
    ∃ l, rows = postProcess subject l ∧
      ∀ a b : CanonicalRecord, [a, b].Sublist l → sortKey a = sortKey b →
        a ∈ rows → b ∈ rows → [a, b].Sublist rows := by
  obtain ⟨l, hl⟩ := fetch_ezsearch_ok_shape post sdate edate subject mode tr rows h
  subst hl
  refine ⟨postProcess_pairwise subject l, (postProcess_pairwise subject l).chain',
    l, rfl, ?_⟩
  intro a b hab hkey ha hb
  exact postProcess_stable subject l a b hab hkey ha hb

theorem result_sorted_stable_witness :
    (fetch_ezsearch (fun _ _ => .ok [rawA]) 0 0 "" "fast" =
      ([(0, 0)], .ok [normalizeRow rawA])) ∧
    ([normalizeRow rawA].Pairwise (fun a b => rowLe a b = true) ∧
      List.Chain' (fun a b => rowLe a b = true) [normalizeRow rawA] ∧
      ∃ l, [normalizeRow rawA] = postProcess "" l ∧
        ∀ a b : CanonicalRecord, [a, b].Sublist l → sortKey a = sortKey b →
          a ∈ [normalizeRow rawA] → b ∈ [normalizeRow rawA] →
          [a, b].Sublist [normalizeRow rawA]) :=
  ⟨by simp [fetch_ezsearch, postProcess, normalizeRecords],
    result_sorted_stable (fun _ _ => .ok [rawA]) 0 0 "" "fast" [(0, 0)]
      [normalizeRow rawA] (by simp [fetch_ezsearch, postProcess, normalizeRecords])⟩

/-! ## C5: keyword filter correctness -/

/-- C5: when a non-empty keyword is supplied, every record of a successful
result contains it as a substring of subject, description, itemName or
companyName, and conversely a record hit by none of the four fields does
not occur in the result, whatever the upstream returned. -/
theorem keyword_filter_correct (post : Nat → Nat → Except EzError (List RawRecord))
    (sdate edate : Nat) (subject mode : String)
    (tr : List Window) (rows : List CanonicalRecord)
    (h : fetch_ezsearch post sdate edate subject mode = (tr, .ok rows))
    (hs : subject ≠ "") :
    (∀ r ∈ rows, keywordHit subject r = true) ∧
    (∀ r : CanonicalRecord, keywordHit subject r = false → r ∉ rows) := by
  obtain ⟨l, hl⟩ := fetch_ezsearch_ok_shape post sdate edate subject mode tr rows h
  subst hl
  constructor
  · intro r hr
    exact ((mem_postProcess subject l r).mp hr).2 hs
  · intro r hmiss hr
    have := ((mem_postProcess subject l r).mp hr).2 hs
    rw [hmiss] at this
    exact Bool.false_ne_true this

theorem keyword_filter_correct_witness :
    (fetch_ezsearch (fun _ _ => .ok [rawA]) 0 0 "公告" "fast" =
      ([(0, 0)], .ok [normalizeRow rawA])) ∧
    ("公告" : String) ≠ "" ∧
    ((∀ r ∈ [normalizeRow rawA], keywordHit "公告" r = true) ∧
      (∀ r : CanonicalRecord, keywordHit "公告" r = false →
        r ∉ [normalizeRow rawA])) :=
  ⟨by simp [fetch_ezsearch, postProcess, normalizeRecords]; decide,
    by decide,
    keyword_filter_correct (fun _ _ => .ok [rawA]) 0 0 "公告" "fast" [(0, 0)]
      [normalizeRow rawA]
      (by simp [fetch_ezsearch, postProcess, normalizeRecords]; decide)
      (by decide)⟩

/-! ## C3: deduplication -/

theorem dedupLoop_sublist (seen : List (Option String × Option String × Option String × Option String)) :
    ∀ l : List CanonicalRecord, (dedupLoop seen l).Sublist l := by
  intro l
  induction l generalizing seen with
  | nil => simp [dedupLoop]
  | cons r rest ih =>
    unfold dedupLoop
    by_cases h : recKey r ∈ seen
    · rw [if_pos h]
      exact (ih seen).cons r
    · rw [if_neg h]
      exact (ih (recKey r :: seen)).cons₂ r

theorem dedupLoop_keys_nodup (l : List CanonicalRecord) :
    ∀ seen, ((dedupLoop seen l).map recKey).Nodup ∧
      ∀ k ∈ (dedupLoop seen l).map recKey, k ∉ seen := by
  induction l with
  | nil => intro seen; simp [dedupLoop]
  | cons r rest ih =>
    intro seen
    unfold dedupLoop
    by_cases h : recKey r ∈ seen
    · rw [if_pos h]
      exact ih seen
    · rw [if_neg h]
      obtain ⟨ihn, ihs⟩ := ih (recKey r :: seen)
      refine ⟨?_, ?_⟩
      · simp only [List.map_cons, List.nodup_cons]
        refine ⟨fun hk => ?_, ihn⟩
        exact ihs _ hk (List.mem_cons_self _ _)
      · intro k hk
        simp only [List.map_cons, List.mem_cons] at hk
        rcases hk with hk | hk
        · subst hk
          exact h
        · intro hks
          exact ihs k hk (List.mem_cons_of_mem _ hks)

theorem dedupLoop_first_occurrence (r : CanonicalRecord) (l₂ : List CanonicalRecord) :
    ∀ (l₁ : List CanonicalRecord)
      (seen : List (Option String × Option String × Option String × Option String)),
      recKey r ∉ seen → recKey r ∉ l₁.map recKey →
      r ∈ dedupLoop seen (l₁ ++ r :: l₂) := by
  intro l₁
  induction l₁ with
  | nil =>
    intro seen hseen _
    simp only [List.nil_append]
    unfold dedupLoop
    rw [if_neg hseen]
    exact List.mem_cons_self _ _
  | cons x t ih =>
    intro seen hseen hkeys
    simp only [List.map_cons, List.mem_cons, not_or] at hkeys
    simp only [List.cons_append]
    unfold dedupLoop
    by_cases h : recKey x ∈ seen
    · rw [if_pos h]
      exact ih seen hseen hkeys.2
    · rw [if_neg h]
      refine List.mem_cons_of_mem _ (ih (recKey x :: seen) ?_ hkeys.2)
      simp only [List.mem_cons, not_or]
      exact ⟨hkeys.1, hseen⟩

/-- C3 (amended): in every successful **full-mode** result the identity
keys are pairwise distinct; the surviving records all come from the
deduplication of the concatenated leaf sequence `rowsAll`, which keeps a
subsequence of `rowsAll` in which the first occurrence of each key is the
one that survives. -/
theorem dedup_no_duplicates (post : Nat → Nat → Except EzError (List RawRecord))
    (sdate edate : Nat) (subject : String)
    (tr tr2 : List Window) (rows rowsAll : List CanonicalRecord)
    (h : fetch_ezsearch post sdate edate subject "full" = (tr, .ok rows))
    (hloop : full_loop post sdate edate = (tr2, .ok rowsAll)) :
    (rows.map recKey).Nodup ∧
    (∀ r ∈ rows, r ∈ dedupLoop [] rowsAll) ∧
    (dedupLoop [] rowsAll).Sublist rowsAll ∧
    (∀ l₁ r l₂, rowsAll = l₁ ++ r :: l₂ → recKey r ∉ l₁.map recKey →
      r ∈ dedupLoop [] rowsAll) := by
  have hrows : rows = postProcess subject (dedupLoop [] rowsAll) := by
    unfold fetch_ezsearch at h
    rw [if_neg (by simp)] at h
    by_cases hd : edate < sdate
    · rw [if_pos hd] at h
      simp at h
    · rw [if_neg hd, if_neg (by simp), hloop] at h
      simp only [Prod.mk.injEq] at h
      exact (Except.ok.inj h.2).symm
  subst hrows
  refine ⟨?_, ?_, dedupLoop_sublist [] rowsAll, ?_⟩
  · have hd : ((dedupLoop [] rowsAll).map recKey).Nodup :=
      (dedupLoop_keys_nodup rowsAll []).1
    have hperm : List.Perm (((dedupLoop [] rowsAll).mergeSort rowLe).map recKey)
        ((dedupLoop [] rowsAll).map recKey) :=
      (List.mergeSort_perm (dedupLoop [] rowsAll) rowLe).map recKey
    have hsortN : (((dedupLoop [] rowsAll).mergeSort rowLe).map recKey).Nodup :=
      hperm.nodup_iff.mpr hd
    unfold postProcess
    by_cases hs : subject = ""
    · simpa [hs] using hsortN
    · simp only [hs, ne_eq, not_false_iff, if_true]
      exact hsortN.sublist ((List.filter_sublist _).map recKey)
  · intro r hr
    exact ((mem_postProcess subject (dedupLoop [] rowsAll) r).mp hr).1
  · intro l₁ r l₂ hsplit hfresh
    subst hsplit
    exact dedupLoop_first_occurrence r l₂ l₁ [] (by simp) hfresh

theorem dedup_no_duplicates_witness :
    (fetch_ezsearch (fun _ _ => .ok [rawA]) 0 0 "" "full" =
      ([(0, 0)], .ok [normalizeRow rawA])) ∧
    (full_loop (fun _ _ => .ok [rawA]) 0 0 = ([(0, 0)], .ok [normalizeRow rawA])) ∧
    (([normalizeRow rawA].map recKey).Nodup ∧
      (∀ r ∈ [normalizeRow rawA], r ∈ dedupLoop [] [normalizeRow rawA]) ∧
      (dedupLoop [] [normalizeRow rawA]).Sublist [normalizeRow rawA] ∧
      (∀ l₁ r l₂, [normalizeRow rawA] = l₁ ++ r :: l₂ →
        recKey r ∉ l₁.map recKey → r ∈ dedupLoop [] [normalizeRow rawA])) :=
  ⟨by simp [fetch_ezsearch, full_loop, fetch_chunk, postProcess, dedupLoop,
      normalizeRecords],
    by simp [full_loop, fetch_chunk, normalizeRecords],
    dedup_no_duplicates (fun _ _ => .ok [rawA]) 0 0 "" [(0, 0)] [(0, 0)]
      [normalizeRow rawA] [normalizeRow rawA]
      (by simp [fetch_ezsearch, full_loop, fetch_chunk, postProcess, dedupLoop,
        normalizeRecords])
      (by simp [full_loop, fetch_chunk, normalizeRecords])⟩

/-- C3 counterexample to the claim as stated over the whole engine: in fast
mode no deduplication happens, so an upstream response that repeats one
record yields a final result bearing the same identity key twice. -/
theorem dedup_no_duplicates_cex :
    (fetch_ezsearch (fun _ _ => .ok [rawA, rawA]) 0 0 "" "fast" =
      ([(0, 0)], .ok [normalizeRow rawA, normalizeRow rawA])) ∧
    ¬ (([normalizeRow rawA, normalizeRow rawA].map recKey).Nodup) := by
  constructor
  · have hself : rowLe (normalizeRow rawA) (normalizeRow rawA) = true :=
      rowLe_of_sortKey_eq rfl
    have hms : ([normalizeRow rawA, normalizeRow rawA] :
        List CanonicalRecord).mergeSort rowLe =
        [normalizeRow rawA, normalizeRow rawA] :=
      List.mergeSort_of_sorted (by simp [List.pairwise_cons, hself])
    simp [fetch_ezsearch, postProcess, normalizeRecords, hms]
  · decide

/-! ## C6: the fetch client and failure propagation -/

theorem fetch_chunk_trace_aux (n : Nat)
    (post : Nat → Nat → Except EzError (List RawRecord)) :
    ∀ a b : Nat, a ≤ b → b - a ≤ n →
      (∀ w ∈ (fetch_chunk post a b).1, a ≤ w.1 ∧ w.1 ≤ w.2 ∧ w.2 ≤ b) ∧
      (fetch_chunk post a b).1.Nodup := by
  induction n with
  | zero =>
    intro a b hab hn
    rcases hp : post a b with e | raw
    · rw [fetch_chunk_error post a b e hp]
      refine ⟨?_, by simp⟩
      intro w hw
      rw [List.mem_singleton] at hw
      subst hw
      omega
    · rw [fetch_chunk_leaf post a b raw hp (by omega)]
      refine ⟨?_, by simp⟩
      intro w hw
      rw [List.mem_singleton] at hw
      subst hw
      omega
  | succ n ih =>
    intro a b hab hn
    rcases hp : post a b with e | raw
    · rw [fetch_chunk_error post a b e hp]
      refine ⟨?_, by simp⟩
      intro w hw
      rw [List.mem_singleton] at hw
      subst hw
      omega
    · by_cases hc : 1000 ≤ raw.length ∧ 1 ≤ b - a
      · rw [fetch_chunk_split post a b raw hp hc]
        have hL := ih a (a + (b - a) / 2) (by omega) (by omega)
        have hR := ih (a + (b - a) / 2 + 1) b (by omega) (by omega)
        rcases hfl : fetch_chunk post a (a + (b - a) / 2) with ⟨tr₁, res₁⟩
        rcases hfr : fetch_chunk post (a + (b - a) / 2 + 1) b with ⟨tr₂, res₂⟩
        rw [hfl] at hL
        rw [hfr] at hR
        simp only at hL hR
        obtain ⟨hLb, hLn⟩ := hL
        obtain ⟨hRb, hRn⟩ := hR
        have hmemL : ∀ w ∈ tr₁, a ≤ w.1 ∧ w.1 ≤ w.2 ∧ w.2 ≤ b := by
          intro w hw
          have := hLb w hw
          omega
        have hmemR : ∀ w ∈ tr₂, a ≤ w.1 ∧ w.1 ≤ w.2 ∧ w.2 ≤ b := by
          intro w hw
          have := hRb w hw
          omega
        have hdisj : ∀ w ∈ tr₁, w ∉ tr₂ := by
          intro w hw hw2
          have h1 := hLb w hw
          have h2 := hRb w hw2
          omega
        have hroot1 : (a, b) ∉ tr₁ := by
          intro hmem
          have := hLb (a, b) hmem
          simp only at this
          omega
        have hroot2 : (a, b) ∉ tr₂ := by
          intro hmem
          have := hRb (a, b) hmem
          simp only at this
          omega
        cases res₁ with
        | error e =>
          refine ⟨?_, ?_⟩
          · intro w hw
            rcases List.mem_cons.mp hw with hw | hw
            · subst hw
              omega
            · exact hmemL w hw
          · exact List.nodup_cons.mpr ⟨hroot1, hLn⟩
        | ok rs₁ =>
          cases res₂ with
          | error e =>
            refine ⟨?_, ?_⟩
            · intro w hw
              rcases List.mem_cons.mp hw with hw | hw
              · subst hw
                omega
              · rcases List.mem_append.mp hw with hw | hw
                · exact hmemL w hw
                · exact hmemR w hw
            · refine List.nodup_cons.mpr ⟨?_, List.Nodup.append hLn hRn ?_⟩
              · intro hmem
                rcases List.mem_append.mp hmem with hmem | hmem
                · exact hroot1 hmem
                · exact hroot2 hmem
              · intro w hw1 hw2
                exact hdisj w hw1 hw2
          | ok rs₂ =>
            refine ⟨?_, ?_⟩
            · intro w hw
              rcases List.mem_cons.mp hw with hw | hw
              · subst hw
                omega
              · rcases List.mem_append.mp hw with hw | hw
                · exact hmemL w hw
                · exact hmemR w hw
            · refine List.nodup_cons.mpr ⟨?_, List.Nodup.append hLn hRn ?_⟩
              · intro hmem
                rcases List.mem_append.mp hmem with hmem | hmem
                · exact hroot1 hmem
                · exact hroot2 hmem
              · intro w hw1 hw2
                exact hdisj w hw1 hw2
      · rw [fetch_chunk_leaf post a b raw hp hc]
        refine ⟨?_, by simp⟩
        intro w hw
        rw [List.mem_singleton] at hw
        subst hw
        omega

theorem fetch_chunk_trace_bounds (post : Nat → Nat → Except EzError (List RawRecord))
    (a b : Nat) (hab : a ≤ b) :
    ∀ w ∈ (fetch_chunk post a b).1, a ≤ w.1 ∧ w.1 ≤ w.2 ∧ w.2 ≤ b :=
  (fetch_chunk_trace_aux (b - a) post a b hab le_rfl).1

theorem fetch_chunk_trace_nodup (post : Nat → Nat → Except EzError (List RawRecord))
    (a b : Nat) (hab : a ≤ b) : (fetch_chunk post a b).1.Nodup :=
  (fetch_chunk_trace_aux (b - a) post a b hab le_rfl).2

theorem matchesIn_sublist (db : List (Nat × RawRecord)) (a b a2 b2 : Nat)
    (ha : a ≤ a2) (hb : b2 ≤ b) :
    (matchesIn db a2 b2).Sublist (matchesIn db a b) := by
  unfold matchesIn
  refine List.Sublist.map _ (List.monotone_filter_right db ?_)
  intro p hp
  simp only [Bool.and_eq_true, decide_eq_true_eq] at hp ⊢
  omega

theorem matchesIn_empty (db : List (Nat × RawRecord)) (a b : Nat) (h : b < a) :
    matchesIn db a b = [] := by
  unfold matchesIn
  rw [List.filter_eq_nil_iff.mpr ?_]
  · rfl
  · intro p hp
    simp only [Bool.and_eq_true, decide_eq_true_eq, not_and]
    omega

theorem truncPost_eq (db : List (Nat × RawRecord)) (a b s e : Nat)
    (hs : s ≤ a) (he : b ≤ e) (hcap : (matchesIn db s e).length < 1000) :
    truncPost db a b = .ok (matchesIn db a b) ∧
      (matchesIn db a b).length < 1000 := by
  have hle := (matchesIn_sublist db s e a b hs he).length_le
  refine ⟨?_, by omega⟩
  unfold truncPost
  rw [List.take_of_length_le (by omega)]

theorem mem_normalize_matches (db : List (Nat × RawRecord)) (a b : Nat)
    (x : CanonicalRecord) :
    x ∈ normalizeRecords (matchesIn db a b) ↔
      ∃ p ∈ db, a ≤ p.1 ∧ p.1 ≤ b ∧ x = normalizeRow p.2 := by
  unfold normalizeRecords matchesIn
  constructor
  · intro hx
    obtain ⟨raw, hraw, hxeq⟩ := List.mem_map.mp hx
    obtain ⟨p, hp, hpe⟩ := List.mem_map.mp hraw
    have hc := (List.mem_filter.mp hp).2
    have hm := (List.mem_filter.mp hp).1
    simp only [Bool.and_eq_true, decide_eq_true_eq] at hc
    exact ⟨p, hm, hc.1, hc.2, by rw [← hxeq, hpe]⟩
  · rintro ⟨p, hp, h1, h2, hx⟩
    subst hx
    exact List.mem_map_of_mem _ (List.mem_map_of_mem _
      (List.mem_filter.mpr ⟨hp, by simp [h1, h2]⟩))

theorem full_loop_trunc_aux (n : Nat) (db : List (Nat × RawRecord))
    (sdate edate : Nat) (hcap : (matchesIn db sdate edate).length < 1000) :
    ∀ cur, sdate ≤ cur → edate + 1 - cur ≤ n →
      ∃ tr rows, full_loop (truncPost db) cur edate = (tr, .ok rows) ∧
        ∀ x, x ∈ rows ↔ x ∈ normalizeRecords (matchesIn db cur edate) := by
  induction n with
  | zero =>
    intro cur hc hn
    rw [full_loop_stop _ _ _ (by omega)]
    refine ⟨[], [], rfl, fun x => ?_⟩
    rw [matchesIn_empty db cur edate (by omega)]
    simp [normalizeRecords]
  | succ n ih =>
    intro cur hc hn
    by_cases hce : cur ≤ edate
    · obtain ⟨hpost, hlen⟩ :=
        truncPost_eq db cur (min (cur + 30) edate) sdate edate hc
          (by omega) hcap
      have hleaf := fetch_chunk_leaf (truncPost db) cur (min (cur + 30) edate)
        (matchesIn db cur (min (cur + 30) edate)) hpost
        (by rintro ⟨h1, _⟩; omega)
      obtain ⟨tr2, rows2, hrec, hmem⟩ := ih (min (cur + 30) edate + 1)
        (by omega) (by omega)
      rw [full_loop_step _ _ _ hce, hleaf, hrec]
      refine ⟨_, _, rfl, fun x => ?_⟩
      simp only [List.mem_append, hmem x, mem_normalize_matches]
      constructor
      · rintro (⟨p, hp, h1, h2, hx⟩ | ⟨p, hp, h1, h2, hx⟩) <;>
          exact ⟨p, hp, by omega, by omega, hx⟩
      · rintro ⟨p, hp, h1, h2, hx⟩
        by_cases hd : p.1 ≤ min (cur + 30) edate
        · exact Or.inl ⟨p, hp, by omega, hd, hx⟩
        · exact Or.inr ⟨p, hp, by omega, by omega, hx⟩
    · rw [full_loop_stop _ _ _ (by omega)]
      refine ⟨[], [], rfl, fun x => ?_⟩
      rw [matchesIn_empty db cur edate (by omega)]
      simp [normalizeRecords]

theorem dedupLoop_mem_of_inj :
    ∀ (l : List CanonicalRecord)
      (seen : List (Option String × Option String × Option String × Option String)),
      (∀ r1 r2, r1 ∈ l → r2 ∈ l → recKey r1 = recKey r2 → r1 = r2) →
      ∀ r ∈ l, recKey r ∉ seen → r ∈ dedupLoop seen l := by
  intro l
  induction l with
  | nil =>
    intro seen _ r hr
    simp at hr
  | cons x rest ih =>
    intro seen hinj r hr hseen
    have hinjR : ∀ r1 r2, r1 ∈ rest → r2 ∈ rest → recKey r1 = recKey r2 →
        r1 = r2 := fun r1 r2 h1 h2 =>
      hinj r1 r2 (List.mem_cons_of_mem _ h1) (List.mem_cons_of_mem _ h2)
    unfold dedupLoop
    by_cases hx : recKey x ∈ seen
    · rw [if_pos hx]
      rcases List.mem_cons.mp hr with hr | hr
      · subst hr
        exact absurd hx hseen
      · exact ih seen hinjR r hr hseen
    · rw [if_neg hx]
      rcases List.mem_cons.mp hr with hr | hr
      · subst hr
        exact List.mem_cons_self _ _
      · by_cases hkey : recKey r = recKey x
        · have hrx : r = x := hinj r x (List.mem_cons_of_mem _ hr)
            (List.mem_cons_self _ _) hkey
          subst hrx
          exact List.mem_cons_self _ _
        · refine List.mem_cons_of_mem _ (ih (recKey x :: seen) hinjR r hr ?_)
          simp only [List.mem_cons, not_or]
          exact ⟨hkey, hseen⟩

/-- C1 (amended): over the truncating upstream model, whenever the true
matching-record count of the window is strictly below the cap of 1000 —
and no two distinct canonical records of the window share an identity key —
fast mode and full mode both succeed and return the same set of
CanonicalRecords (as sets, ignoring order and multiplicity). -/
theorem mode_equivalence (db : List (Nat × RawRecord)) (sdate edate : Nat)
    (subject : String) (hrange : sdate ≤ edate)
    (hcap : (matchesIn db sdate edate).length < 1000)
    (hinj : ∀ r1 r2, r1 ∈ normalizeRecords (matchesIn db sdate edate) →
      r2 ∈ normalizeRecords (matchesIn db sdate edate) →
      recKey r1 = recKey r2 → r1 = r2) :
    ∃ trF rowsF trG rowsG,
      fetch_ezsearch (truncPost db) sdate edate subject "fast" =
        (trF, .ok rowsF) ∧
      fetch_ezsearch (truncPost db) sdate edate subject "full" =
        (trG, .ok rowsG) ∧
      ∀ r, r ∈ rowsF ↔ r ∈ rowsG := by
  obtain ⟨hpost, _⟩ := truncPost_eq db sdate edate sdate edate le_rfl le_rfl hcap
  obtain ⟨trG, rowsAll, hloop, hmem⟩ :=
    full_loop_trunc_aux (edate + 1 - sdate) db sdate edate hcap sdate le_rfl
      le_rfl
  have hfast : fetch_ezsearch (truncPost db) sdate edate subject "fast" =
      ([(sdate, edate)],
        .ok (postProcess subject (normalizeRecords (matchesIn db sdate edate)))) := by
    unfold fetch_ezsearch
    rw [if_neg (by simp), if_neg (by omega), if_pos rfl, hpost]
  have hfull : fetch_ezsearch (truncPost db) sdate edate subject "full" =
      (trG, .ok (postProcess subject (dedupLoop [] rowsAll))) := by
    unfold fetch_ezsearch
    rw [if_neg (by simp), if_neg (by omega), if_neg (by simp), hloop]
  refine ⟨_, _, _, _, hfast, hfull, fun r => ?_⟩
  rw [mem_postProcess, mem_postProcess]
  have hdedup : r ∈ dedupLoop [] rowsAll ↔
      r ∈ normalizeRecords (matchesIn db sdate edate) := by
    constructor
    · intro hr
      exact (hmem r).mp ((dedupLoop_sublist [] rowsAll).subset hr)
    · intro hr
      refine dedupLoop_mem_of_inj rowsAll [] ?_ r ((hmem r).mpr hr) (by simp)
      intro r1 r2 h1 h2
      exact hinj r1 r2 ((hmem r1).mp h1) ((hmem r2).mp h2)
  rw [hdedup]

theorem mode_equivalence_witness :
    ((0 : Nat) ≤ 40 ∧
      (matchesIn [(5, rawA)] 0 40).length < 1000 ∧
      (∀ r1 r2, r1 ∈ normalizeRecords (matchesIn [(5, rawA)] 0 40) →
        r2 ∈ normalizeRecords (matchesIn [(5, rawA)] 0 40) →
        recKey r1 = recKey r2 → r1 = r2)) ∧
    (∃ trF rowsF trG rowsG,
      fetch_ezsearch (truncPost [(5, rawA)]) 0 40 "" "fast" =
        (trF, .ok rowsF) ∧
      fetch_ezsearch (truncPost [(5, rawA)]) 0 40 "" "full" =
        (trG, .ok rowsG) ∧
      ∀ r, r ∈ rowsF ↔ r ∈ rowsG) :=
  ⟨⟨by decide, by decide, by
      intro r1 r2 h1 h2 _
      have hlist : normalizeRecords (matchesIn [(5, rawA)] 0 40) =
          [normalizeRow rawA] := by decide
      rw [hlist, List.mem_singleton] at h1 h2
      rw [h1, h2]⟩,
    mode_equivalence [(5, rawA)] 0 40 "" (by decide) (by decide) (by
      intro r1 r2 h1 h2 _
      have hlist : normalizeRecords (matchesIn [(5, rawA)] 0 40) =
          [normalizeRow rawA] := by decide
      rw [hlist, List.mem_singleton] at h1 h2
      rw [h1, h2])⟩

/-- C1 counterexample to the claim as stated: when the upstream returns two
distinct records sharing one identity key inside a window whose true count
(2) is far below the cap, fast mode returns both records while full mode
deduplicates them away, so the two modes do not return the same set of
CanonicalRecords. -/
theorem mode_equivalence_cex :
    (matchesIn [(5, rawA), (5, rawB)] 0 9).length < 1000 ∧
    fetch_ezsearch (truncPost [(5, rawA), (5, rawB)]) 0 9 "" "fast" =
      ([(0, 9)], .ok [normalizeRow rawA, normalizeRow rawB]) ∧
    fetch_ezsearch (truncPost [(5, rawA), (5, rawB)]) 0 9 "" "full" =
      ([(0, 9)], .ok [normalizeRow rawA]) ∧
    normalizeRow rawB ≠ normalizeRow rawA := by
  have hpair : rowLe (normalizeRow rawA) (normalizeRow rawB) = true := by decide
  have hms : ([normalizeRow rawA, normalizeRow rawB] :
      List CanonicalRecord).mergeSort rowLe =
      [normalizeRow rawA, normalizeRow rawB] :=
    List.mergeSort_of_sorted (by simp [List.pairwise_cons, hpair])
  have hdd : dedupLoop [] [normalizeRow rawA, normalizeRow rawB] =
      [normalizeRow rawA] := by decide
  refine ⟨by decide, ?_, ?_, by decide⟩
  · simp [fetch_ezsearch, truncPost, matchesIn, postProcess, normalizeRecords,
      hms]
  · simp [fetch_ezsearch, full_loop, fetch_chunk, truncPost, matchesIn,
      normalizeRecords, postProcess, hdd]
